import Mathlib

/-!
# Verification of the replay-buffer core of td3-pytorch

The repository's `src/main.py` is the orchestration entry point; the
replay-buffer data structures (`agents.memory.ReplayBuffer` and its ring
buffers) and the training loop (`orchestrator`) are collaborator modules
referenced from `main.py`.  Where the deciding code is in `src/main.py`
the definitions below are translated from it directly; where it lives in
the collaborator modules, the definitions are modelled from the spec and
carry a doc comment saying so.
-/

namespace TD3

/-! ## Ring buffer (modelled from the spec) -/

/-- Modelled from the spec: the Ring Buffer of `agents.memory` (not under
`src/`).  Per spec §3: `capacity` fixed for life, `write_cursor` in
`[0, capacity)` starting at 0, `size` in `[0, capacity]` starting at 0,
and a backing storage of length `capacity`.  Storage slots are `Option`
so that never-written (uninitialized) slots are distinguishable. -/
structure RingBuffer (α : Type) where
  capacity : Nat
  write_cursor : Nat
  size : Nat
  storage : Nat → Option α

/-- Modelled from the spec: a freshly constructed ring buffer of capacity `C`:
cursor 0, size 0, no slot written yet. -/
def RingBuffer.init (α : Type) (C : Nat) : RingBuffer α :=
  ⟨C, 0, 0, fun _ => none⟩

/-- Modelled from the spec §3/§4.2: `push(value)` writes `value` at
`write_cursor`, then `write_cursor = (write_cursor + 1) mod capacity` and
`size = min (size + 1) capacity`.  It always succeeds (overwrite-on-wrap). -/
def RingBuffer.push {α : Type} (rb : RingBuffer α) (v : α) : RingBuffer α :=
  { rb with
    storage := fun j => if j = rb.write_cursor then some v else rb.storage j
    write_cursor := (rb.write_cursor + 1) % rb.capacity
    size := min (rb.size + 1) rb.capacity }

/-- Push a whole sequence of values in order. -/
def RingBuffer.pushMany {α : Type} (rb : RingBuffer α) (vs : List α) : RingBuffer α :=
  vs.foldl RingBuffer.push rb

theorem RingBuffer.pushMany_append {α : Type} (rb : RingBuffer α) (vs : List α) (v : α) :
    rb.pushMany (vs ++ [v]) = (rb.pushMany vs).push v := by
  simp [RingBuffer.pushMany, List.foldl_append]

theorem RingBuffer.capacity_pushMany {α : Type} (C : Nat) (vs : List α) :
    ((RingBuffer.init α C).pushMany vs).capacity = C := by
  induction vs using List.reverseRecOn with
  | nil => rfl
  | append_singleton ws w ih =>
      rw [RingBuffer.pushMany_append]
      simpa [RingBuffer.push] using ih

theorem RingBuffer.cursor_pushMany {α : Type} (C : Nat) (vs : List α) :
    ((RingBuffer.init α C).pushMany vs).write_cursor = vs.length % C := by
  induction vs using List.reverseRecOn with
  | nil => simp [RingBuffer.pushMany, RingBuffer.init]
  | append_singleton ws w ih =>
      rw [RingBuffer.pushMany_append]
      simp only [RingBuffer.push, RingBuffer.capacity_pushMany, ih, List.length_append,
        List.length_singleton]
      conv_rhs => rw [Nat.add_mod]
      rw [Nat.add_mod (ws.length % C) 1, Nat.mod_mod_of_dvd ws.length (dvd_refl C)]

theorem RingBuffer.size_pushMany {α : Type} (C : Nat) (vs : List α) :
    ((RingBuffer.init α C).pushMany vs).size = min vs.length C := by
  induction vs using List.reverseRecOn with
  | nil => simp [RingBuffer.pushMany, RingBuffer.init]
  | append_singleton ws w ih =>
      rw [RingBuffer.pushMany_append]
      simp only [RingBuffer.push, RingBuffer.capacity_pushMany, ih, List.length_append,
        List.length_singleton]
      omega

/-- The storage after a push sequence: slot `j` holds the value of the *last*
push whose position (push index mod capacity) was `j`. -/
theorem RingBuffer.storage_pushMany_eq {α : Type} (C : Nat) (vs : List α)
    (j i : Nat) (hi : i < vs.length) (hij : i % C = j)
    (hlast : ∀ i', i < i' → i' < vs.length → i' % C ≠ j) :
    ((RingBuffer.init α C).pushMany vs).storage j = vs[i]? := by
  induction vs using List.reverseRecOn with
  | nil => simp at hi
  | append_singleton ws w ih =>
      rw [RingBuffer.pushMany_append]
      simp only [List.length_append, List.length_singleton] at hi hlast
      rcases Nat.lt_succ_iff_lt_or_eq.mp hi with hlt | heq
      · have hne : ws.length % C ≠ j := hlast ws.length hlt (Nat.lt_succ_self _)
        simp only [RingBuffer.push, RingBuffer.cursor_pushMany]
        rw [if_neg (fun h => hne h.symm)]
        rw [List.getElem?_append_left hlt]
        exact ih hlt fun i' h1 h2 => hlast i' h1 (Nat.lt_succ_of_lt h2)
      · subst heq
        simp only [RingBuffer.push, RingBuffer.cursor_pushMany]
        rw [if_pos hij.symm]
        simp

theorem RingBuffer.storage_pushMany_none {α : Type} (C : Nat) (vs : List α)
    (j : Nat) (hnone : ∀ i, i < vs.length → i % C ≠ j) :
    ((RingBuffer.init α C).pushMany vs).storage j = none := by
  induction vs using List.reverseRecOn with
  | nil => simp [RingBuffer.pushMany, RingBuffer.init]
  | append_singleton ws w ih =>
      rw [RingBuffer.pushMany_append]
      simp only [List.length_append, List.length_singleton] at hnone
      simp only [RingBuffer.push, RingBuffer.cursor_pushMany]
      rw [if_neg, ih]
      · exact fun i h1 => hnone i (Nat.lt_succ_of_lt h1)
      · intro h
        exact hnone ws.length (Nat.lt_succ_self _) h.symm

/-- In any window of `C` consecutive push indices ending at `n`, every residue
class `j < C` modulo `C` has a representative. -/
theorem exists_last_window_rep (C n j : Nat) (hC : 0 < C) (hn : C ≤ n) (hj : j < C) :
    ∃ i, n - C ≤ i ∧ i < n ∧ i % C = j := by
  have hd : C * (n / C) + n % C = n := Nat.div_add_mod n C
  have hrC : n % C < C := Nat.mod_lt n hC
  by_cases hjr : j < n % C
  · refine ⟨C * (n / C) + j, ?_, ?_, ?_⟩
    · omega
    · omega
    · rw [Nat.mul_add_mod]
      exact Nat.mod_eq_of_lt hj
  · have hq1 : 1 ≤ n / C := by
      rcases Nat.eq_zero_or_pos (n / C) with h0 | h1
      · rw [h0, Nat.mul_zero] at hd
        omega
      · exact h1
    have hm : C * (n / C - 1) + C = C * (n / C) := by
      rcases Nat.exists_eq_add_of_le hq1 with ⟨p, hp⟩
      rw [hp, Nat.add_sub_cancel_left]
      ring
    refine ⟨C * (n / C - 1) + j, ?_, ?_, ?_⟩
    · omega
    · omega
    · rw [Nat.mul_add_mod]
      exact Nat.mod_eq_of_lt hj

/-- Two distinct indices in the same residue class modulo `C` are at least `C`
apart. -/
theorem lt_of_mod_eq (C i j : Nat) (hij : i < j) (he : j % C = i % C) :
    i + C ≤ j := by
  have hdvd : C ∣ j - i := (Nat.modEq_iff_dvd' (Nat.le_of_lt hij)).mp he.symm
  have : C ≤ j - i := Nat.le_of_dvd (by omega) hdvd
  omega

/-- C5: for every ring buffer of capacity `C > 0` and every push sequence of
length `n ≤ C` from the initial state, `size = n` and `write_cursor = n % C`;
and in every reachable state (i.e. after an arbitrary push sequence `vs`),
`size = capacity` iff the buffer has wrapped at least once (the cursor has
passed the end, i.e. at least `C` pushes happened), while before the first
wrap (`n < C`) `size = write_cursor`. -/
theorem ringBuffer_push_counts_and_wrap_invariant (α : Type) (C : Nat) (hC : 0 < C)
    (vs : List α) :
    (vs.length ≤ C →
      ((RingBuffer.init α C).pushMany vs).size = vs.length ∧
      ((RingBuffer.init α C).pushMany vs).write_cursor = vs.length % C) ∧
    (((RingBuffer.init α C).pushMany vs).size = C ↔ C ≤ vs.length) ∧
    (vs.length < C →
      ((RingBuffer.init α C).pushMany vs).size =
        ((RingBuffer.init α C).pushMany vs).write_cursor) := by
  refine ⟨fun h => ⟨?_, ?_⟩, ?_, fun h => ?_⟩
  · rw [RingBuffer.size_pushMany]; omega
  · rw [RingBuffer.cursor_pushMany]
  · rw [RingBuffer.size_pushMany]; omega
  · rw [RingBuffer.size_pushMany, RingBuffer.cursor_pushMany, Nat.mod_eq_of_lt h]
    omega

theorem ringBuffer_push_counts_and_wrap_invariant_witness :
    0 < 3 ∧
    ((([7, 8] : List Nat).length ≤ 3 →
        ((RingBuffer.init Nat 3).pushMany [7, 8]).size = ([7, 8] : List Nat).length ∧
        ((RingBuffer.init Nat 3).pushMany [7, 8]).write_cursor =
          ([7, 8] : List Nat).length % 3) ∧
      (((RingBuffer.init Nat 3).pushMany [7, 8]).size = 3 ↔
        3 ≤ ([7, 8] : List Nat).length) ∧
      (([7, 8] : List Nat).length < 3 →
        ((RingBuffer.init Nat 3).pushMany [7, 8]).size =
          ((RingBuffer.init Nat 3).pushMany [7, 8]).write_cursor)) :=
  ⟨by decide, ringBuffer_push_counts_and_wrap_invariant Nat 3 (by decide) [7, 8]⟩

/-- C6: push always succeeds in the model (it is a total function, with no
buffer-full error), and for every capacity `C > 0` and push sequence of
length `n > C`, afterwards `size = C` and the buffer holds exactly the last
`C` pushed values: each pushed value of index `i ∈ [n - C, n)` sits at slot
`i % C`, and every slot `j < C` holds one of those last `C` values — the
older values having been silently overwritten. -/
theorem ringBuffer_overwrite_on_wrap (α : Type) (C : Nat) (hC : 0 < C)
    (vs : List α) (hn : C < vs.length) :
    ((RingBuffer.init α C).pushMany vs).size = C ∧
    (∀ i, vs.length - C ≤ i → i < vs.length →
      ((RingBuffer.init α C).pushMany vs).storage (i % C) = vs[i]?) ∧
    (∀ j, j < C → ∃ i, vs.length - C ≤ i ∧ i < vs.length ∧
      ((RingBuffer.init α C).pushMany vs).storage j = vs[i]?) := by
  have hstore : ∀ i, vs.length - C ≤ i → i < vs.length →
      ((RingBuffer.init α C).pushMany vs).storage (i % C) = vs[i]? := by
    intro i h1 h2
    refine RingBuffer.storage_pushMany_eq C vs (i % C) i h2 rfl ?_
    intro i' hi1 hi2 he
    have := lt_of_mod_eq C i i' hi1 he
    omega
  refine ⟨?_, hstore, ?_⟩
  · rw [RingBuffer.size_pushMany]; omega
  · intro j hj
    obtain ⟨i, h1, h2, h3⟩ :=
      exists_last_window_rep C vs.length j hC (Nat.le_of_lt hn) hj
    exact ⟨i, h1, h2, h3 ▸ hstore i h1 h2⟩

theorem ringBuffer_overwrite_on_wrap_witness :
    0 < 2 ∧ 2 < ([10, 20, 30] : List Nat).length ∧
    (((RingBuffer.init Nat 2).pushMany [10, 20, 30]).size = 2 ∧
      (∀ i, ([10, 20, 30] : List Nat).length - 2 ≤ i →
        i < ([10, 20, 30] : List Nat).length →
        ((RingBuffer.init Nat 2).pushMany [10, 20, 30]).storage (i % 2) =
          ([10, 20, 30] : List Nat)[i]?) ∧
      (∀ j, j < 2 → ∃ i, ([10, 20, 30] : List Nat).length - 2 ≤ i ∧
        i < ([10, 20, 30] : List Nat).length ∧
        ((RingBuffer.init Nat 2).pushMany [10, 20, 30]).storage j =
          ([10, 20, 30] : List Nat)[i]?)) :=
  ⟨by decide, by decide,
    ringBuffer_overwrite_on_wrap Nat 2 (by decide) [10, 20, 30] (by decide)⟩

/-! ## Replay buffer over named ring buffers (modelled from the spec) -/

/-- A field's element shape (tuple of dimension sizes). -/
abbrev Shape := List Nat

/-- A pushed value: its runtime shape together with an abstract payload. -/
structure Val where
  shape : Shape
  payload : Int
  deriving DecidableEq

/-- Modelled from the spec: the Replay Buffer of `agents.memory` (not under
`src/`): a fixed list of field descriptors `erb_shapes` (name, element shape)
and one ring buffer per field name. -/
structure ReplayBuffer where
  erb_shapes : List (String × Shape)
  ring_buffers : String → RingBuffer Val

inductive PushError where
  | fieldMismatch
  | shapeMismatch
  deriving DecidableEq

def ReplayBuffer.fieldNames (rb : ReplayBuffer) : List String :=
  rb.erb_shapes.map Prod.fst

/-- Modelled from the spec §4.3: the transition mapping's key set must exactly
equal the registered field names (every registered field present, no unknown
key). -/
def ReplayBuffer.keysMatch (rb : ReplayBuffer) (t : List (String × Val)) : Bool :=
  rb.fieldNames.all (fun n => (t.lookup n).isSome) &&
    t.all (fun p => rb.fieldNames.contains p.1)

/-- Modelled from the spec §4.1/§7: every field's pushed value must have the
registered element shape. -/
def ReplayBuffer.shapesOk (rb : ReplayBuffer) (t : List (String × Val)) : Bool :=
  rb.erb_shapes.all (fun p =>
    match t.lookup p.1 with
    | some v => v.shape == p.2
    | none => false)

/-- Modelled from the spec §4.3/§7: `push(transition)` first validates the key
set, then validates all fields' shapes, and only then writes every field's
ring buffer; on any validation failure it returns the state unchanged together
with the error (all-or-nothing per transition). -/
def ReplayBuffer.push (rb : ReplayBuffer) (t : List (String × Val)) :
    ReplayBuffer × Option PushError :=
  if rb.keysMatch t then
    if rb.shapesOk t then
      ({ rb with ring_buffers := fun n =>
          match t.lookup n with
          | some v =>
              if rb.fieldNames.contains n then (rb.ring_buffers n).push v
              else rb.ring_buffers n
          | none => rb.ring_buffers n }, none)
    else (rb, some PushError.shapeMismatch)
  else (rb, some PushError.fieldMismatch)

/-- C7: pushing a transition whose key set does not equal the registered field
names, or in which some registered field's value has a mismatched shape, is
rejected with an error and leaves the buffer unchanged: `size`,
`write_cursor`, and the storage of every field's ring buffer are exactly as
before, no field having been written (validation precedes every write). -/
theorem replayBuffer_push_all_or_nothing (rb : ReplayBuffer) (t : List (String × Val))
    (h : rb.keysMatch t = false ∨
      ∃ p ∈ rb.erb_shapes, ∃ v, t.lookup p.1 = some v ∧ v.shape ≠ p.2) :
    ((rb.push t).2.isSome = true) ∧ (rb.push t).1 = rb ∧
    ∀ n, ((rb.push t).1.ring_buffers n).size = (rb.ring_buffers n).size ∧
      ((rb.push t).1.ring_buffers n).write_cursor = (rb.ring_buffers n).write_cursor ∧
      ((rb.push t).1.ring_buffers n).storage = (rb.ring_buffers n).storage := by
  have key : (rb.push t).1 = rb ∧ (rb.push t).2.isSome = true := by
    rcases h with hk | ⟨p, hp, v, hv, hne⟩
    · simp [ReplayBuffer.push, hk]
    · have hs : rb.shapesOk t = false := by
        apply Bool.eq_false_iff.mpr
        intro hall
        rw [ReplayBuffer.shapesOk, List.all_eq_true] at hall
        have := hall p hp
        rw [hv] at this
        exact hne (by simpa using this)
      by_cases hk : rb.keysMatch t
      · simp [ReplayBuffer.push, hk, hs]
      · simp [ReplayBuffer.push, hk]
  exact ⟨key.2, key.1, fun n => by rw [key.1]; exact ⟨rfl, rfl, rfl⟩⟩

theorem replayBuffer_push_all_or_nothing_witness :
    ((ReplayBuffer.mk [("obs", [3])] (fun _ => RingBuffer.init Val 5)).keysMatch
        [("obs", Val.mk [2] 0)] = false ∨
      ∃ p ∈ (ReplayBuffer.mk [("obs", [3])] (fun _ => RingBuffer.init Val 5)).erb_shapes,
        ∃ v, ([("obs", Val.mk [2] 0)] : List (String × Val)).lookup p.1 = some v ∧
          v.shape ≠ p.2) ∧
    (((ReplayBuffer.mk [("obs", [3])] (fun _ => RingBuffer.init Val 5)).push
        [("obs", Val.mk [2] 0)]).2.isSome = true) ∧
    ((ReplayBuffer.mk [("obs", [3])] (fun _ => RingBuffer.init Val 5)).push
        [("obs", Val.mk [2] 0)]).1 =
      ReplayBuffer.mk [("obs", [3])] (fun _ => RingBuffer.init Val 5) ∧
    ∀ n, ((((ReplayBuffer.mk [("obs", [3])] (fun _ => RingBuffer.init Val 5)).push
        [("obs", Val.mk [2] 0)]).1.ring_buffers n).size =
          ((ReplayBuffer.mk [("obs", [3])]
            (fun _ => RingBuffer.init Val 5)).ring_buffers n).size) ∧
      ((((ReplayBuffer.mk [("obs", [3])] (fun _ => RingBuffer.init Val 5)).push
        [("obs", Val.mk [2] 0)]).1.ring_buffers n).write_cursor =
          ((ReplayBuffer.mk [("obs", [3])]
            (fun _ => RingBuffer.init Val 5)).ring_buffers n).write_cursor) ∧
      ((((ReplayBuffer.mk [("obs", [3])] (fun _ => RingBuffer.init Val 5)).push
        [("obs", Val.mk [2] 0)]).1.ring_buffers n).storage =
          ((ReplayBuffer.mk [("obs", [3])]
            (fun _ => RingBuffer.init Val 5)).ring_buffers n).storage) :=
  have hmis : ∃ p ∈ (ReplayBuffer.mk [("obs", [3])]
      (fun _ => RingBuffer.init Val 5)).erb_shapes,
      ∃ v, ([("obs", Val.mk [2] 0)] : List (String × Val)).lookup p.1 = some v ∧
        v.shape ≠ p.2 :=
    ⟨("obs", [3]), by simp [ReplayBuffer.erb_shapes], Val.mk [2] 0, by simp, by simp⟩
  ⟨Or.inr hmis,
    replayBuffer_push_all_or_nothing
      (ReplayBuffer.mk [("obs", [3])] (fun _ => RingBuffer.init Val 5))
      [("obs", Val.mk [2] 0)] (Or.inr hmis)⟩

/-! ## Seeded generator and sampling (modelled from the spec) -/

/-- Modelled from the spec: a `torch.Generator`-like seeded random stream,
embedded as a pure pseudo-random state.  All randomness consumed by sampling
flows through this explicit state; there is no ambient or global source in
the model. -/
structure Generator where
  state : Nat
  deriving DecidableEq

/-- Seed the generator deterministically from an integer seed. -/
def Generator.manual_seed (seed : Int) : Generator :=
  ⟨2 * seed.natAbs + (if seed < 0 then 1 else 0)⟩

/-- Draw one pseudo-random value below `bound`, advancing the state
(a 64-bit linear-congruential step). -/
def Generator.next (g : Generator) (bound : Nat) : Nat × Generator :=
  let s := (6364136223846793005 * g.state + 1442695040888963407) % (2 ^ 64)
  (s % bound, ⟨s⟩)

/-- Modelled from the spec §4.3: draw `batch` indices uniformly with
replacement from `[0, size)` using only the supplied generator. -/
def sampleIndices (size batch : Nat) (g : Generator) : List Nat × Generator :=
  match batch with
  | 0 => ([], g)
  | b + 1 =>
      let (i, g') := g.next size
      let (rest, g'') := sampleIndices size b g'
      (i :: rest, g'')

/-- Current occupancy of the replay buffer: the size reported by the first
registered field's ring buffer (all advance in lockstep per the spec). -/
def ReplayBuffer.len (rb : ReplayBuffer) : Nat :=
  match rb.erb_shapes with
  | [] => 0
  | p :: _ => (rb.ring_buffers p.1).size

/-- Modelled from the spec §4.3: `sample(batch_size, generator)` draws
`batch_size` indices from `[0, current_size)` with the caller's generator;
it reads the buffer state and the generator only. -/
def ReplayBuffer.sample (rb : ReplayBuffer) (batch : Nat) (g : Generator) :
    List Nat × Generator :=
  sampleIndices rb.len batch g

/-- C4: sampling is a deterministic function of the buffer state and the
caller-supplied generator: for every buffer state and batch size, two
`sample(batch_size, generator)` calls made with identically (freshly) seeded
generators produce identical index lists.  In this embedding sampling takes
no input other than the buffer state and the generator, so no ambient or
global random source can influence it. -/
theorem replayBuffer_sampling_deterministic (rb : ReplayBuffer) (batch : Nat)
    (seed : Int) (g g' : Generator)
    (hg : g = Generator.manual_seed seed) (hg' : g' = Generator.manual_seed seed) :
    (rb.sample batch g).1 = (rb.sample batch g').1 := by
  subst hg
  subst hg'
  rfl

theorem replayBuffer_sampling_deterministic_witness :
    (Generator.manual_seed 42 = Generator.manual_seed 42) ∧
    (((ReplayBuffer.mk [("obs", [3])] (fun _ => RingBuffer.init Val 5)).sample 4
        (Generator.manual_seed 42)).1 =
      ((ReplayBuffer.mk [("obs", [3])] (fun _ => RingBuffer.init Val 5)).sample 4
        (Generator.manual_seed 42)).1) :=
  ⟨rfl, replayBuffer_sampling_deterministic
    (ReplayBuffer.mk [("obs", [3])] (fun _ => RingBuffer.init Val 5)) 4 42
    (Generator.manual_seed 42) (Generator.manual_seed 42) rfl rfl⟩

/-! ## MagicRunner configuration and pool construction (from `src/main.py`) -/

/-- The configuration fields of `MagicRunner` that the verified fragment
reads (`src/main.py`): base seed, vectorization flag, configured environment
count `numenv`, batch size, and replay-buffer capacity. -/
structure RunnerCfg where
  seed : Int
  vectorized : Bool
  numenv : Nat
  batch_size : Nat
  rbx_capacity : Nat
  deriving DecidableEq

/-- From `src/main.py` line 103:
`self._cfg.num_env = self._cfg.numenv if self._cfg.vectorized else 1`. -/
def computeNumEnv (vectorized : Bool) (numenv : Nat) : Nat :=
  if vectorized then numenv else 1

/-- The configuration state produced by the tail of `MagicRunner.__init__`
(`src/main.py` lines 102-110): the derived `num_env`, the (possibly divided)
`batch_size`, and the read-only flag set by `OmegaConf.set_readonly`. -/
structure FinalRunnerCfg where
  num_env : Nat
  batch_size : Nat
  readonly : Bool
  deriving DecidableEq

/-- From `src/main.py` lines 102-110: compute `num_env`; when `num_env > 1`,
assert `batch_size >= num_env` (modelled as `Except.error` on assertion
failure) and overwrite `batch_size //= num_env`; finally set the config
read-only. -/
def finalizeCfg (c : RunnerCfg) : Except String FinalRunnerCfg :=
  let num_env := computeNumEnv c.vectorized c.numenv
  if 1 < num_env then
    if num_env ≤ c.batch_size then
      Except.ok ⟨num_env, c.batch_size / num_env, true⟩
    else Except.error "assert batch_size >= num_env"
  else Except.ok ⟨num_env, c.batch_size, true⟩

/-- The construction parameters of one pool member: the seed given to its
`torch.Generator`, its capacity, and its device. -/
structure RBParams where
  genSeed : Int
  capacity : Nat
  device : String
  deriving DecidableEq

/-- From `src/main.py` lines 164-169: the replay-buffer pool built in
`MagicRunner.train`.  Every member is constructed as
`ReplayBuffer(generator=torch.Generator(device).manual_seed(self._cfg.seed),
capacity=self._cfg.rbx_capacity, erb_shapes=erb_shapes, device=device)` —
note that each member's generator is seeded with the same base seed. -/
def mkReplayBufferPool (seed : Int) (num_env : Nat) (rbx_capacity : Nat)
    (device : String) : List RBParams :=
  (List.range num_env).map (fun _ => ⟨seed, rbx_capacity, device⟩)

/-- C1 (counterexample): the claim that any two distinct pool members have
different generator seeds fails on the code: with base seed 42 and
`num_env = 2`, members 0 and 1 are both seeded with 42, so the seeds are not
pairwise distinct. -/
theorem pool_member_seeds_not_pairwise_distinct :
    ¬ (mkReplayBufferPool 42 2 1000 "cpu").Pairwise
        (fun a b => a.genSeed ≠ b.genSeed) := by
  decide

/-- C1 (amended): every pool member is constructed with the same generator
seed, equal to the base seed `cfg.seed` regardless of the environment index;
hence with `num_env ≥ 2` distinct members share a generator seed at
construction. -/
theorem pool_member_seeds_all_equal_base (seed : Int) (num_env cap : Nat)
    (device : String) (i : Nat) (hi : i < num_env) :
    (mkReplayBufferPool seed num_env cap device)[i]? =
      some (RBParams.mk seed cap device) := by
  simp [mkReplayBufferPool, List.getElem?_map, List.getElem?_range hi,
    List.getElem?_replicate, hi]

theorem pool_member_seeds_all_equal_base_witness :
    1 < 3 ∧ (mkReplayBufferPool 7 3 10 "cpu")[1]? =
      some (RBParams.mk 7 10 "cpu") :=
  ⟨by decide, pool_member_seeds_all_equal_base 7 3 10 "cpu" 1 (by decide)⟩

/-- C3: with a configured environment count `numenv ≥ 1`, the pool built at
training start has exactly `num_env` members where
`num_env = numenv` if vectorized and `1` otherwise (so `num_env ≥ 1`), and
every member is constructed with the same capacity `rbx_capacity` and the
same device. -/
theorem pool_one_buffer_per_env (c : RunnerCfg) (device : String)
    (hnum : 1 ≤ c.numenv) :
    1 ≤ computeNumEnv c.vectorized c.numenv ∧
    computeNumEnv c.vectorized c.numenv = (if c.vectorized then c.numenv else 1) ∧
    (mkReplayBufferPool c.seed (computeNumEnv c.vectorized c.numenv)
      c.rbx_capacity device).length = computeNumEnv c.vectorized c.numenv ∧
    ∀ p ∈ mkReplayBufferPool c.seed (computeNumEnv c.vectorized c.numenv)
        c.rbx_capacity device,
      p.capacity = c.rbx_capacity ∧ p.device = device := by
  refine ⟨?_, rfl, ?_, ?_⟩
  · unfold computeNumEnv
    split <;> omega
  · simp [mkReplayBufferPool]
  · intro p hp
    obtain ⟨i, hi, rfl⟩ := List.mem_map.mp hp
    exact ⟨rfl, rfl⟩

theorem pool_one_buffer_per_env_witness :
    1 ≤ (RunnerCfg.mk 42 true 2 8 1000).numenv ∧
    (1 ≤ computeNumEnv (RunnerCfg.mk 42 true 2 8 1000).vectorized
        (RunnerCfg.mk 42 true 2 8 1000).numenv ∧
      computeNumEnv (RunnerCfg.mk 42 true 2 8 1000).vectorized
          (RunnerCfg.mk 42 true 2 8 1000).numenv =
        (if (RunnerCfg.mk 42 true 2 8 1000).vectorized
          then (RunnerCfg.mk 42 true 2 8 1000).numenv else 1) ∧
      (mkReplayBufferPool (RunnerCfg.mk 42 true 2 8 1000).seed
        (computeNumEnv (RunnerCfg.mk 42 true 2 8 1000).vectorized
          (RunnerCfg.mk 42 true 2 8 1000).numenv)
        (RunnerCfg.mk 42 true 2 8 1000).rbx_capacity "cpu").length =
        computeNumEnv (RunnerCfg.mk 42 true 2 8 1000).vectorized
          (RunnerCfg.mk 42 true 2 8 1000).numenv ∧
      ∀ p ∈ mkReplayBufferPool (RunnerCfg.mk 42 true 2 8 1000).seed
          (computeNumEnv (RunnerCfg.mk 42 true 2 8 1000).vectorized
            (RunnerCfg.mk 42 true 2 8 1000).numenv)
          (RunnerCfg.mk 42 true 2 8 1000).rbx_capacity "cpu",
        p.capacity = (RunnerCfg.mk 42 true 2 8 1000).rbx_capacity ∧
        p.device = "cpu") :=
  ⟨by decide, pool_one_buffer_per_env (RunnerCfg.mk 42 true 2 8 1000) "cpu" (by decide)⟩

/-- C8: in `MagicRunner.__init__`, when the configuration is vectorized with
`num_env > 1`, under the asserted precondition `batch_size >= num_env` the
stored batch size becomes `batch_size / num_env` (floor division), which is
at least 1; when not vectorized or when `num_env = 1`, the batch size is
unchanged; and in every successful outcome the configuration is read-only. -/
theorem magicRunner_batch_size_finalize (c : RunnerCfg) :
    (∀ (hv : c.vectorized = true) (h1 : 1 < c.numenv)
        (hb : c.numenv ≤ c.batch_size),
      finalizeCfg c =
        Except.ok (FinalRunnerCfg.mk c.numenv (c.batch_size / c.numenv) true) ∧
      1 ≤ c.batch_size / c.numenv) ∧
    ((c.vectorized = false ∨ computeNumEnv c.vectorized c.numenv = 1) →
      finalizeCfg c =
        Except.ok (FinalRunnerCfg.mk (computeNumEnv c.vectorized c.numenv)
          c.batch_size true)) ∧
    (∀ f, finalizeCfg c = Except.ok f → f.readonly = true) := by
  refine ⟨fun hv h1 hb => ⟨?_, ?_⟩, fun h => ?_, fun f hf => ?_⟩
  · have hne : computeNumEnv c.vectorized c.numenv = c.numenv := by
      simp [computeNumEnv, hv]
    simp [finalizeCfg, hne, h1, hb]
  · exact (Nat.one_le_div_iff (by omega)).mpr hb
  · have hne : computeNumEnv c.vectorized c.numenv = 1 := by
      rcases h with hv | h1
      · simp [computeNumEnv, hv]
      · exact h1
    simp [finalizeCfg, hne]
  · simp only [finalizeCfg] at hf
    split at hf
    · split at hf
      · injection hf with h
        subst h
        rfl
      · exact Except.noConfusion hf
    · injection hf with h
      subst h
      rfl

theorem magicRunner_batch_size_finalize_witness :
    ((RunnerCfg.mk 0 true 2 8 100).vectorized = true ∧
      1 < (RunnerCfg.mk 0 true 2 8 100).numenv ∧
      (RunnerCfg.mk 0 true 2 8 100).numenv ≤ (RunnerCfg.mk 0 true 2 8 100).batch_size) ∧
    (finalizeCfg (RunnerCfg.mk 0 true 2 8 100) =
      Except.ok (FinalRunnerCfg.mk (RunnerCfg.mk 0 true 2 8 100).numenv
        ((RunnerCfg.mk 0 true 2 8 100).batch_size /
          (RunnerCfg.mk 0 true 2 8 100).numenv) true) ∧
      1 ≤ (RunnerCfg.mk 0 true 2 8 100).batch_size /
        (RunnerCfg.mk 0 true 2 8 100).numenv) :=
  ⟨⟨rfl, by decide, by decide⟩,
    (magicRunner_batch_size_finalize (RunnerCfg.mk 0 true 2 8 100)).1
      rfl (by decide) (by decide)⟩

/-! ## The `MagicRunner.train` event trace (from `src/main.py`) -/

/-- The effectful steps performed by `MagicRunner.train`, abstracted as
events. -/
inductive TrainEvent where
  | configureLogger
  | setupDevice
  | seedGlobalRngs
  | makeTrainEnv
  | createReplayBuffers (num : Nat)
  | sanityCheckRingBuffer (member : Nat) (ring : String)
  | makeEvalEnv
  | orchestratorTrainStep
  | closeEnvs
  deriving DecidableEq

/-- Modelled from the spec: the body of `orchestrator.train` (the
`orchestrator` module is not under `src/`).  Per the spec, the sanity-check
routine "is invoked once at startup on only one buffer instance" and is
"intended to be invoked at startup ..., never on the hot path", so the
orchestrator's own trace contains no sanity-check event. -/
def orchestratorTrainEvents : List TrainEvent :=
  [TrainEvent.orchestratorTrainStep]

/-- From `src/main.py` lines 129-213: the ordered steps of
`MagicRunner.train`: logger setup, device setup, global seeding, training-env
creation, replay-buffer-pool creation, the single
`replay_buffers[0].ring_buffers["acs0"].sanity_check_ringbuffer()` call
(line 174), eval-env creation, the `orchestrator.train` call, and cleanup. -/
def trainTrace (num_env : Nat) : List TrainEvent :=
  [TrainEvent.configureLogger, TrainEvent.setupDevice, TrainEvent.seedGlobalRngs,
    TrainEvent.makeTrainEnv, TrainEvent.createReplayBuffers num_env,
    TrainEvent.sanityCheckRingBuffer 0 "acs0", TrainEvent.makeEvalEnv]
  ++ orchestratorTrainEvents ++ [TrainEvent.closeEnvs]

def TrainEvent.isSanityCheck : TrainEvent → Bool
  | TrainEvent.sanityCheckRingBuffer _ _ => true
  | _ => false

/-- C2: in a training run the sanity-check routine is invoked exactly once,
on the ring buffer "acs0" of pool member 0 only, and this single invocation
happens before the orchestrator's training loop starts; no sanity-check event
occurs anywhere else in the trace (in particular not on the hot path). -/
theorem train_sanity_check_once (num_env : Nat) :
    (trainTrace num_env).filter TrainEvent.isSanityCheck =
      [TrainEvent.sanityCheckRingBuffer 0 "acs0"] ∧
    ∃ l1 l2, trainTrace num_env =
        l1 ++ TrainEvent.sanityCheckRingBuffer 0 "acs0" :: l2 ∧
      (∀ e ∈ l1, e.isSanityCheck = false) ∧
      (∀ e ∈ l2, e.isSanityCheck = false) ∧
      TrainEvent.orchestratorTrainStep ∈ l2 := by
  refine ⟨rfl, [TrainEvent.configureLogger, TrainEvent.setupDevice,
    TrainEvent.seedGlobalRngs, TrainEvent.makeTrainEnv,
    TrainEvent.createReplayBuffers num_env],
    [TrainEvent.makeEvalEnv, TrainEvent.orchestratorTrainStep,
      TrainEvent.closeEnvs], rfl, ?_, ?_, ?_⟩
  · intro e he
    fin_cases he <;> rfl
  · intro e he
    fin_cases he <;> rfl
  · simp

/-! ## Experiment naming (from `src/main.py`) -/

/-- Python's `str.zfill(width)`: left-pad with ASCII zeros up to `width`,
inserting the padding after a leading sign character if present. -/
def zfill (s : String) (w : Nat) : String :=
  if w ≤ s.length then s
  else
    match s.data with
    | '-' :: rest => String.mk ('-' :: (List.replicate (w - s.length) '0' ++ rest))
    | '+' :: rest => String.mk ('+' :: (List.replicate (w - s.length) '0' ++ rest))
    | l => String.mk (List.replicate (w - s.length) '0' ++ l)

/-- From `src/main.py` lines 39-51: `get_name(uuid, env_id, seed)`.  The
external `git rev-parse --short HEAD` subprocess is modelled by its outcome:
`some sha` when it succeeds, `none` when it raises the caught `OSError`. -/
def get_name (git : Option String) (uuid env_id : String) (seed : Int) : String :=
  let name := uuid
  let name := match git with
    | some sha => name ++ ".gitSHA_" ++ sha
    | none => name
  let name := name ++ "." ++ env_id
  name ++ ".seed" ++ zfill (toString seed) 2

/-- C9: for every uuid, env id and integer seed (and every outcome of the git
lookup), `get_name` returns a string that starts with `uuid` and ends with
`"." ++ env_id ++ ".seed" ++ zfill (toString seed) 2` (the seed rendered and
zero-padded to at least two characters), with a `".gitSHA_" ++ sha` segment
inserted right after `uuid` exactly when the git lookup succeeds. -/
theorem get_name_format (git : Option String) (uuid env_id : String) (seed : Int) :
    ∃ mid, ((git = none ∧ mid = "") ∨
        (∃ sha, git = some sha ∧ mid = ".gitSHA_" ++ sha)) ∧
      get_name git uuid env_id seed =
        uuid ++ mid ++ ("." ++ env_id ++ ".seed" ++ zfill (toString seed) 2) ∧
      2 ≤ (zfill (toString seed) 2).length := by
  have hlen : ∀ s : String, 2 ≤ (zfill s 2).length := by
    intro s
    rw [zfill]
    split
    · omega
    · rename_i hlt
      have hs : s.length = s.data.length := rfl
      split <;>
        simp only [String.length_mk, List.length_cons, List.length_append,
          List.length_replicate] <;> omega
  cases git with
  | none =>
      refine ⟨"", Or.inl ⟨rfl, rfl⟩, ?_, hlen _⟩
      simp [get_name, String.append_assoc]
  | some sha =>
      refine ⟨".gitSHA_" ++ sha, Or.inr ⟨sha, rfl, rfl⟩, ?_, hlen _⟩
      simp [get_name, String.append_assoc]

/-! ## Semi-pronounceable uuid generation (from `src/main.py`) -/

/-- From `src/main.py` line 25: the fixed consonant list `part1`. -/
def part1 : List String :=
  ["s", "t", "r", "ch", "b", "c", "w", "z", "h", "k", "p", "ph", "sh", "f", "fr"]

/-- From `src/main.py` line 26: the fixed vowel list `part2`. -/
def part2 : List String := ["a", "oo", "ee", "e", "u", "er"]

/-- From `src/main.py` line 27: the separator list `seps` (a single
underscore). -/
def seps : List String := ["_"]

/-- One syllable `part1[i1] + part2[i2]` of `make_uuid`.  Each
`random.randrange(len(l))` draw is modelled by an arbitrary natural reduced
modulo `len(l)`, which ranges over exactly the values `randrange` can
return. -/
def syllable (i1 i2 : Nat) : String :=
  part1.getD (i1 % part1.length) "" ++ part2.getD (i2 % part2.length) ""

/-- The inner loop of `make_uuid` building one part:
`for i1, i2 in zip(indices1, indices2): result += part1[i1] + part2[i2]`. -/
def uuidPart (idx1 idx2 : Nat → Nat) (num_syllables : Nat) : String :=
  (List.range num_syllables).foldl
    (fun acc j => acc ++ syllable (idx1 j) (idx2 j)) ""

/-- From `src/main.py` lines 22-36: `make_uuid(num_syllables, num_parts)`,
with the random draws supplied as index streams: `sepIdx i` is the draw for
part `i`'s separator, `idx1 i j` and `idx2 i j` the draws for part `i`'s
`j`-th syllable. -/
def make_uuid (sepIdx : Nat → Nat) (idx1 idx2 : Nat → Nat → Nat)
    (num_syllables num_parts : Nat) : String :=
  (List.range num_parts).foldl
    (fun result i =>
      (if 0 < i then result ++ seps.getD (sepIdx i % seps.length) "" else result)
        ++ uuidPart (idx1 i) (idx2 i) num_syllables)
    ""

/-- Joining a list of parts with single underscores between consecutive
parts. -/
def joinUnderscore : List String → String
  | [] => ""
  | p :: ps => ps.foldl (fun acc q => acc ++ "_" ++ q) p

theorem joinUnderscore_append_singleton (ps : List String) (hps : ps ≠ [])
    (x : String) : joinUnderscore (ps ++ [x]) = joinUnderscore ps ++ "_" ++ x := by
  cases ps with
  | nil => exact absurd rfl hps
  | cons p qs => simp [joinUnderscore, List.foldl_append]

theorem make_uuid_eq_join (sepIdx : Nat → Nat) (idx1 idx2 : Nat → Nat → Nat)
    (ns n : Nat) :
    make_uuid sepIdx idx1 idx2 ns n =
      joinUnderscore ((List.range n).map fun i => uuidPart (idx1 i) (idx2 i) ns) := by
  induction n with
  | zero => rfl
  | succ m ih =>
      rw [make_uuid, List.range_succ, List.foldl_append, List.map_append]
      rcases Nat.eq_zero_or_pos m with hm | hm
      · subst hm
        simp [joinUnderscore, uuidPart]
      · have hne : (List.range m).map (fun i => uuidPart (idx1 i) (idx2 i) ns) ≠ [] := by
          simp only [ne_eq, List.map_eq_nil_iff, List.range_eq_nil]
          omega
        rw [List.map_singleton, joinUnderscore_append_singleton _ hne]
        rw [← ih, ← make_uuid]
        simp only [List.foldl_cons, List.foldl_nil]
        rw [if_pos hm]
        have hsep : seps.getD (sepIdx m % seps.length) "" = "_" := by
          simp [seps, Nat.mod_one]
        rw [hsep]

theorem part1_chars_lower : ∀ s ∈ part1, ∀ c ∈ s.data, 'a' ≤ c ∧ c ≤ 'z' := by
  decide

theorem part2_chars_lower : ∀ s ∈ part2, ∀ c ∈ s.data, 'a' ≤ c ∧ c ≤ 'z' := by
  decide

theorem getD_mod_mem (l : List String) (hl : l ≠ []) (k : Nat) :
    l.getD (k % l.length) "" ∈ l := by
  have hlen : 0 < l.length := List.length_pos.mpr hl
  have hk : k % l.length < l.length := Nat.mod_lt _ hlen
  rw [List.getD_eq_getElem l "" hk]
  exact List.getElem_mem hk

theorem syllable_chars (i1 i2 : Nat) :
    ∀ c ∈ (syllable i1 i2).data, 'a' ≤ c ∧ c ≤ 'z' := by
  intro c hc
  rw [syllable, String.data_append] at hc
  rcases List.mem_append.mp hc with h | h
  · exact part1_chars_lower _ (getD_mod_mem part1 (by decide) i1) c h
  · exact part2_chars_lower _ (getD_mod_mem part2 (by decide) i2) c h

theorem uuidPart_chars (idx1 idx2 : Nat → Nat) (ns : Nat) :
    ∀ c ∈ (uuidPart idx1 idx2 ns).data, 'a' ≤ c ∧ c ≤ 'z' := by
  induction ns with
  | zero =>
      intro c hc
      simp [uuidPart] at hc
  | succ m ih =>
      intro c hc
      rw [uuidPart, List.range_succ, List.foldl_append, List.foldl_cons,
        List.foldl_nil, ← uuidPart, String.data_append] at hc
      rcases List.mem_append.mp hc with h | h
      · exact ih c h
      · exact syllable_chars _ _ c h

theorem syllable_data_len (i1 i2 : Nat) : 1 ≤ (syllable i1 i2).data.length := by
  have h1 : ∀ s ∈ part1, 1 ≤ s.data.length := by decide
  have hm := getD_mod_mem part1 (by decide) i1
  rw [syllable, String.data_append, List.length_append]
  have := h1 _ hm
  omega

theorem uuidPart_data_len (idx1 idx2 : Nat → Nat) (ns : Nat) (h : 1 ≤ ns) :
    1 ≤ (uuidPart idx1 idx2 ns).data.length := by
  rcases Nat.exists_eq_add_of_le h with ⟨m, hm⟩
  subst hm
  rw [Nat.add_comm, uuidPart, List.range_succ, List.foldl_append, List.foldl_cons,
    List.foldl_nil, ← uuidPart, String.data_append, List.length_append]
  have := syllable_data_len (idx1 m) (idx2 m)
  omega

theorem mem_data_sepFoldl (qs : List String) (acc : String) (ch : Char)
    (h : ch ∈ ((qs.foldl (fun a q => a ++ "_" ++ q) acc)).data) :
    ch ∈ acc.data ∨ ch = '_' ∨ ∃ q ∈ qs, ch ∈ q.data := by
  induction qs generalizing acc with
  | nil => exact Or.inl h
  | cons q qs ih =>
      rw [List.foldl_cons] at h
      rcases ih (acc ++ "_" ++ q) h with h' | h' | ⟨q', hq', hc⟩
      · rw [String.data_append, String.data_append] at h'
        rcases List.mem_append.mp h' with h'' | h''
        · rcases List.mem_append.mp h'' with h3 | h3
          · exact Or.inl h3
          · refine Or.inr (Or.inl ?_)
            simpa using h3
        · exact Or.inr (Or.inr ⟨q, List.mem_cons_self q qs, h''⟩)
      · exact Or.inr (Or.inl h')
      · exact Or.inr (Or.inr ⟨q', List.mem_cons_of_mem q hq', hc⟩)

theorem count_sepFoldl (qs : List String) (acc : String)
    (h : ∀ q ∈ qs, ∀ c ∈ q.data, c ≠ '_') :
    ((qs.foldl (fun a q => a ++ "_" ++ q) acc)).data.count '_' =
      acc.data.count '_' + qs.length := by
  induction qs generalizing acc with
  | nil => simp
  | cons q qs ih =>
      rw [List.foldl_cons, ih _ (fun q' hq' => h q' (List.mem_cons_of_mem q hq'))]
      have hq0 : q.data.count '_' = 0 :=
        List.count_eq_zero.mpr (fun hc => h q (List.mem_cons_self q qs) '_' hc rfl)
      rw [String.data_append, String.data_append, List.count_append,
        List.count_append, hq0]
      have : ("_" : String).data.count '_' = 1 := by decide
      rw [this]
      simp [List.length_cons]
      omega

theorem len_sepFoldl (qs : List String) (acc : String) :
    acc.data.length ≤ ((qs.foldl (fun a q => a ++ "_" ++ q) acc)).data.length := by
  induction qs generalizing acc with
  | nil => exact Nat.le_refl _
  | cons q qs ih =>
      rw [List.foldl_cons]
      refine Nat.le_trans ?_ (ih (acc ++ "_" ++ q))
      rw [String.data_append, String.data_append, List.length_append,
        List.length_append]
      omega

theorem count_joinUnderscore (parts : List String)
    (h : ∀ p ∈ parts, ∀ c ∈ p.data, c ≠ '_') :
    (joinUnderscore parts).data.count '_' = parts.length - 1 := by
  cases parts with
  | nil => decide
  | cons p ps =>
      rw [joinUnderscore,
        count_sepFoldl ps p (fun q hq => h q (List.mem_cons_of_mem p hq))]
      have hp0 : p.data.count '_' = 0 :=
        List.count_eq_zero.mpr (fun hc => h p (List.mem_cons_self p ps) '_' hc rfl)
      rw [hp0]
      simp

/-- C10: for every `num_syllables ≥ 1` and `num_parts ≥ 1` and every outcome
of the random draws, `make_uuid` returns the underscore-join of exactly
`num_parts` parts (so exactly `num_parts - 1` underscore characters occur,
the parts themselves being underscore-free lowercase), where each part is
the concatenation of `num_syllables` syllables, each syllable an element of
the fixed consonant list followed by an element of the fixed vowel list;
the result contains only lowercase letters and underscores and is
non-empty. -/
theorem make_uuid_structure (sepIdx : Nat → Nat) (idx1 idx2 : Nat → Nat → Nat)
    (num_syllables num_parts : Nat)
    (hns : 1 ≤ num_syllables) (hnp : 1 ≤ num_parts) :
    ∃ parts : List String,
      parts.length = num_parts ∧
      make_uuid sepIdx idx1 idx2 num_syllables num_parts = joinUnderscore parts ∧
      (∀ p ∈ parts, ∃ sylls : List String, sylls.length = num_syllables ∧
        p = String.join sylls ∧
        ∀ s ∈ sylls, ∃ c ∈ part1, ∃ v ∈ part2, s = c ++ v) ∧
      (∀ ch ∈ (make_uuid sepIdx idx1 idx2 num_syllables num_parts).data,
        ch = '_' ∨ ('a' ≤ ch ∧ ch ≤ 'z')) ∧
      (make_uuid sepIdx idx1 idx2 num_syllables num_parts).data.count '_' =
        num_parts - 1 ∧
      make_uuid sepIdx idx1 idx2 num_syllables num_parts ≠ "" := by
  refine ⟨(List.range num_parts).map
    (fun i => uuidPart (idx1 i) (idx2 i) num_syllables), by simp,
    make_uuid_eq_join sepIdx idx1 idx2 num_syllables num_parts, ?_, ?_, ?_, ?_⟩
  · intro p hp
    obtain ⟨i, _, rfl⟩ := List.mem_map.mp hp
    refine ⟨(List.range num_syllables).map
      (fun j => syllable (idx1 i j) (idx2 i j)), by simp, ?_, ?_⟩
    · rw [String.join, List.foldl_map]
      rfl
    · intro s hs
      obtain ⟨j, _, rfl⟩ := List.mem_map.mp hs
      exact ⟨_, getD_mod_mem part1 (by decide) (idx1 i j),
        _, getD_mod_mem part2 (by decide) (idx2 i j), rfl⟩
  · intro ch hch
    rw [make_uuid_eq_join] at hch
    rcases Nat.exists_eq_add_of_le hnp with ⟨m, hm⟩
    have hcons : (List.range num_parts).map
        (fun i => uuidPart (idx1 i) (idx2 i) num_syllables) ≠ [] := by
      simp only [ne_eq, List.map_eq_nil_iff, List.range_eq_nil]
      omega
    obtain ⟨p, ps, hpps⟩ := List.exists_cons_of_ne_nil hcons
    rw [hpps, joinUnderscore] at hch
    rcases mem_data_sepFoldl ps p ch hch with h | h | ⟨q, hq, hc⟩
    · have hp : p ∈ (List.range num_parts).map
          (fun i => uuidPart (idx1 i) (idx2 i) num_syllables) := by
        rw [hpps]; exact List.mem_cons_self p ps
      obtain ⟨i, _, hpe⟩ := List.mem_map.mp hp
      exact Or.inr (uuidPart_chars _ _ _ ch (hpe ▸ h))
    · exact Or.inl h
    · have hqm : q ∈ (List.range num_parts).map
          (fun i => uuidPart (idx1 i) (idx2 i) num_syllables) := by
        rw [hpps]; exact List.mem_cons_of_mem p hq
      obtain ⟨i, _, hqe⟩ := List.mem_map.mp hqm
      exact Or.inr (uuidPart_chars _ _ _ ch (hqe ▸ hc))
  · rw [make_uuid_eq_join, count_joinUnderscore]
    · simp
    · intro p hp c hc
      obtain ⟨i, _, rfl⟩ := List.mem_map.mp hp
      have := uuidPart_chars _ _ _ c hc
      intro hcu
      subst hcu
      exact absurd this (by decide)
  · intro hempty
    have hdata : (make_uuid sepIdx idx1 idx2 num_syllables num_parts).data = [] := by
      rw [hempty]
    have hcons : (List.range num_parts).map
        (fun i => uuidPart (idx1 i) (idx2 i) num_syllables) ≠ [] := by
      simp only [ne_eq, List.map_eq_nil_iff, List.range_eq_nil]
      omega
    obtain ⟨p, ps, hpps⟩ := List.exists_cons_of_ne_nil hcons
    have hp : p ∈ (List.range num_parts).map
        (fun i => uuidPart (idx1 i) (idx2 i) num_syllables) := by
      rw [hpps]; exact List.mem_cons_self p ps
    obtain ⟨i, _, hpe⟩ := List.mem_map.mp hp
    have hlen : 1 ≤ p.data.length := by
      rw [← hpe]
      exact uuidPart_data_len _ _ _ hns
    have := len_sepFoldl ps p
    rw [make_uuid_eq_join, hpps, joinUnderscore] at hdata
    rw [hdata] at this
    simp at this
    have hlen0 : p.data.length = 0 := this
    omega

theorem make_uuid_structure_witness :
    1 ≤ 1 ∧ 1 ≤ 2 ∧
    (∃ parts : List String,
      parts.length = 2 ∧
      make_uuid (fun _ => 0) (fun _ _ => 0) (fun _ _ => 0) 1 2 =
        joinUnderscore parts ∧
      (∀ p ∈ parts, ∃ sylls : List String, sylls.length = 1 ∧
        p = String.join sylls ∧
        ∀ s ∈ sylls, ∃ c ∈ part1, ∃ v ∈ part2, s = c ++ v) ∧
      (∀ ch ∈ (make_uuid (fun _ => 0) (fun _ _ => 0) (fun _ _ => 0) 1 2).data,
        ch = '_' ∨ ('a' ≤ ch ∧ ch ≤ 'z')) ∧
      (make_uuid (fun _ => 0) (fun _ _ => 0) (fun _ _ => 0) 1 2).data.count '_' =
        2 - 1 ∧
      make_uuid (fun _ => 0) (fun _ _ => 0) (fun _ _ => 0) 1 2 ≠ "") :=
  ⟨by decide, by decide,
    make_uuid_structure (fun _ => 0) (fun _ _ => 0) (fun _ _ => 0) 1 2
      (by decide) (by decide)⟩

end TD3
